import Mathlib

/-!
Verification of the memory-pool arena and the DD-spec state-representation
protocol of a decision-diagram manipulation library.

The embedding models:
* `MemoryPool` (src/include/ModernDD/util/MemoryPool.hpp): a chain of blocks
  with a bump cursor `nextUnit`, and the operations `alloc`, `clear`, `reuse`,
  `splice`, `moveFrom`, `empty`.  A block is identified by a fresh id; its
  payload words are carried in a `data` field that no pool operation inspects
  or modifies, so chain equalities express content preservation.  An
  allocation result is abstracted as a `Region`: the block it lives in, the
  unit offset of its first unit inside that block, and its size in units.
* The byte-buffer operations of the spec protocol variants
  (src/include/ModernDD/NodeBddSpec.hpp): buffers are lists of machine words
  (the code manipulates them through `std::span<size_t>` word views);
  `get_copy` / `equal_to` / `destruct` for the scalar (`DdSpec`), POD-array
  (`PodArrayDdSpec`) and hybrid (`HybridDdSpec`) variants, and the raw
  byte hashing of `DdSpecBase`.
-/

set_option autoImplicit false

/-- Size of `Unit`, a struct holding one pointer: 8 bytes on the modelled
LP64 platform. -/
def UNIT_SIZE : Nat := 8

/-- Source constant `BLOCK_UNITS = 400000 / UNIT_SIZE`. -/
def BLOCK_UNITS : Nat := 400000 / UNIT_SIZE

/-- Source constant `MAX_ELEMENT_UNIS = BLOCK_UNITS / 10`. -/
def MAX_ELEMENT_UNIS : Nat := BLOCK_UNITS / 10

/-- One block of the pool chain, the result of `new Unit[units]`.  Field `id`
identifies the allocation (distinct `new` results are distinct), `units` is
the length the block was allocated with, and `data` stands for the payload
words stored in the block; no pool operation ever touches `data`. -/
structure Block where
  id : Nat
  units : Nat
  data : List Nat
deriving DecidableEq

/-- Pool state: `blockList` is the chain headed by the most recent block,
`nextUnit` the bump cursor in the head block.  Field `fresh` is the model
supply of block ids (standing for the freshness of `new` results). -/
structure MemoryPool where
  blockList : List Block
  nextUnit : Nat
  fresh : Nat
deriving DecidableEq

/-- A freshly constructed pool: null `blockList`, `nextUnit` at `BLOCK_UNITS`. -/
def initialPool : MemoryPool := ⟨[], BLOCK_UNITS, 0⟩

/-- The result of `alloc`: the id of the block the returned pointer points
into (`none` when the pool had no block and pointer arithmetic started from
null), the unit offset of the returned pointer inside that block, and the
number of units the caller may use.  The returned byte pointer is the base
of the block plus `startUnit * UNIT_SIZE`. -/
structure Region where
  block : Option Nat
  startUnit : Nat
  units : Nat
deriving DecidableEq

/-- Local `elementUnits = (n + UNIT_SIZE - 1) / UNIT_SIZE` of `alloc`: the
request rounded up to whole units. -/
def elementUnits (n : Nat) : Nat := (n + UNIT_SIZE - 1) / UNIT_SIZE

/-- Model of `MemoryPool::alloc(size_t n)`.  Large path: a dedicated block of
`elementUnits + 1` units spliced in right after the current head (or made the
sole block of an empty pool), returning `block + 1`; cursor untouched.
Bump path: a fresh full block is pushed at the head when the request does not
fit, the cursor restarts at 1; then the region `[nextUnit, nextUnit+eu)` of
the head block is handed out. -/
def MemoryPool.alloc (p : MemoryPool) (n : Nat) : MemoryPool × Region :=
  if MAX_ELEMENT_UNIS < elementUnits n then
    match p.blockList with
    | [] => (⟨[⟨p.fresh, elementUnits n + 1, []⟩], p.nextUnit, p.fresh + 1⟩,
             ⟨some p.fresh, 1, elementUnits n⟩)
    | h :: t => (⟨h :: ⟨p.fresh, elementUnits n + 1, []⟩ :: t, p.nextUnit,
                  p.fresh + 1⟩,
                 ⟨some p.fresh, 1, elementUnits n⟩)
  else if BLOCK_UNITS < p.nextUnit + elementUnits n then
    (⟨⟨p.fresh, BLOCK_UNITS, []⟩ :: p.blockList, 1 + elementUnits n,
      p.fresh + 1⟩,
     ⟨some p.fresh, 1, elementUnits n⟩)
  else
    (⟨p.blockList, p.nextUnit + elementUnits n, p.fresh⟩,
     ⟨p.blockList.head?.map Block.id, p.nextUnit, elementUnits n⟩)

/-- Model of `MemoryPool::empty()`. -/
def MemoryPool.empty (p : MemoryPool) : Bool := p.blockList.isEmpty

/-- Model of `MemoryPool::clear()`: every block freed, cursor back to
`BLOCK_UNITS`. -/
def MemoryPool.clear (p : MemoryPool) : MemoryPool := ⟨[], BLOCK_UNITS, p.fresh⟩

/-- Model of `MemoryPool::reuse()`: no-op on an empty pool; otherwise frees
every block except the last (oldest) one and rewinds the cursor to 1. -/
def MemoryPool.reuse (p : MemoryPool) : MemoryPool :=
  match p.blockList with
  | [] => p
  | b :: bs => ⟨[bs.getLastD b], 1, p.fresh⟩

/-- Model of `this.splice(o)`: the chain of `this` is hung off the tail of
the chain of `o` (found by walking `o.blockList`), then `this` takes over the
combined chain and the cursor of `o`, and `o` is reset to null chain and
full-block cursor.  Returns (new `this`, new `o`). -/
def MemoryPool.splice (a o : MemoryPool) : MemoryPool × MemoryPool :=
  let chain := if a.blockList.isEmpty then o.blockList
               else o.blockList ++ a.blockList
  (⟨chain, o.nextUnit, max a.fresh o.fresh⟩, ⟨[], BLOCK_UNITS, o.fresh⟩)

/-- Model of `this.moveFrom(o)`: `this` takes the chain and cursor of `o`;
only `o.blockList` is nulled, `o.nextUnit` keeps its old value.
Returns (new `this`, new `o`). -/
def MemoryPool.moveFrom (a o : MemoryPool) : MemoryPool × MemoryPool :=
  (⟨o.blockList, o.nextUnit, max a.fresh o.fresh⟩, ⟨[], o.nextUnit, o.fresh⟩)

/-- Run a sequence of `alloc` requests, collecting the returned regions. -/
def MemoryPool.allocRun (p : MemoryPool) : List Nat → MemoryPool × List Region
  | [] => (p, [])
  | n :: ns =>
    let pr := p.alloc n
    let rest := pr.1.allocRun ns
    (rest.1, pr.2 :: rest.2)

/-- Two regions are disjoint when one is empty, they live in different
blocks, or their unit intervals inside the common block do not overlap. -/
def Region.disjoint (r1 r2 : Region) : Prop :=
  r1.units = 0 ∨ r2.units = 0 ∨ r1.block ≠ r2.block ∨
    r1.startUnit + r1.units ≤ r2.startUnit ∨
    r2.startUnit + r2.units ≤ r1.startUnit

instance (r1 r2 : Region) : Decidable (r1.disjoint r2) := by
  unfold Region.disjoint; infer_instance

/-- Total rounded size of a request sequence, in units. -/
def totalUnits (ns : List Nat) : Nat := (ns.map elementUnits).sum

/-- The closed-form layout of a fitting run of small requests: consecutive
regions of the head block `b`, starting at cursor `c`. -/
def layoutFrom (b : Option Nat) (c : Nat) : List Nat → List Region
  | [] => []
  | n :: ns => ⟨b, c, elementUnits n⟩ :: layoutFrom b (c + elementUnits n) ns

/-- Mutation of one word of a buffer, the observable effect a caller has when
writing through the returned state pointer. -/
def writeWord (b : List Nat) (i v : Nat) : List Nat := b.set i v

/-- Model of `DdSpec::get_copy(to, from)` for the scalar variant: placement
copy-construction `new (to) State(state(from))`, so the destination buffer
becomes a copy of the source state representation.  Buffers are the word
views of states whose every byte is meaningful. -/
def DdSpec.get_copy (_dst src : List Nat) : List Nat := src

/-- Model of `DdSpec::equal_to`: `rawEqualTo` compares the full word view of
both states. -/
def DdSpec.equal_to (p q : List Nat) : Bool := p == q

/-- Model of `PodArrayDdSpec::get_copy`: `ranges::copy` of the `dataWords`
source words into the destination buffer, starting at its begin iterator. -/
def PodArrayDdSpec.get_copy (dataWords : Nat) (dst src : List Nat) : List Nat :=
  src.take dataWords ++ dst.drop dataWords

/-- Model of `PodArrayDdSpec::equal_to`: `ranges::equal` on the `dataWords`
word spans of the two buffers. -/
def PodArrayDdSpec.equal_to (dataWords : Nat) (p q : List Nat) : Bool :=
  p.take dataWords == q.take dataWords

/-- Model of `HybridDdSpec::get_copy`.  First `getCopy(to, s_state(from))`
copy-constructs the scalar state into the first `sW` words of the
destination (the scalar is taken to fill its `S_WORDS` words exactly).  Then
the source words with the scalar prefix dropped are copied by
`ranges::copy(aux_p.begin(), aux_p.end(), aux_q.end())`: the output iterator
is the END of the destination word span, so the `dW - sW` array words are
written to positions `dW, dW + 1, ...` — past the end of the destination
buffer, leaving its own array region untouched.  The first component is the
destination buffer after the call; the second component is the list of words
written beyond its end (clobbering whatever object follows it in memory). -/
def HybridDdSpec.get_copy (sW dW : Nat) (dst src : List Nat) :
    List Nat × List Nat :=
  (src.take sW ++ dst.drop sW, (src.drop sW).take (dW - sW))

/-- Model of `HybridDdSpec::equal_to`: the scalar prefixes are compared via
`rawEqualTo` (word view of the scalar), then the remaining `dW - sW` array
words are compared by `ranges::equal` on the dropped spans. -/
def HybridDdSpec.equal_to (sW dW : Nat) (p q : List Nat) : Bool :=
  (p.take sW == q.take sW) &&
    ((p.drop sW).take (dW - sW) == (q.drop sW).take (dW - sW))

/-- A constructed in-place state; `destructorRuns` counts how many times its
destructor has been invoked. -/
structure StateBuffer where
  destructorRuns : Nat
deriving DecidableEq

/-- Model of `DdSpec::destruct(p)`: the body is the single explicit
destructor call on the in-place object. -/
def DdSpec.destruct (b : StateBuffer) : StateBuffer := ⟨b.destructorRuns + 1⟩

/-- Model of `PodArrayDdSpec::destruct(p)`: the body is empty, no destructor
runs. -/
def PodArrayDdSpec.destruct (b : StateBuffer) : StateBuffer := b

/-- Model of `HybridDdSpec::destruct(p)`: the body is empty, no destructor
runs (the parameter is even marked maybe-unused in the source). -/
def HybridDdSpec.destruct (b : StateBuffer) : StateBuffer := b

/-- Configuration fields of `PodArrayDdSpec`: `arraySize` and `dataWords`
are C++ `int`, both initialised to `-1` by the constructor. -/
structure PodArraySpecState where
  arraySize : Int
  dataWords : Int
deriving DecidableEq

/-- State set up by the `PodArrayDdSpec` constructor. -/
def PodArrayDdSpec.init : PodArraySpecState := ⟨-1, -1⟩

/-- Model of `PodArrayDdSpec::setArraySize(int n)`: throws when
`arraySize >= 0` already (second call), otherwise records the size and the
word-rounded `dataWords`.  `sizeofState` is `sizeof(State)`. -/
def PodArrayDdSpec.setArraySize (c : PodArraySpecState) (sizeofState n : Nat) :
    Except String PodArraySpecState :=
  if 0 ≤ c.arraySize then
    .error "Cannot set array size twice; use setArraySize only once in the constructor of DD spec."
  else
    .ok { c with
          arraySize := (n : Int),
          dataWords := ((n * sizeofState + (UNIT_SIZE - 1)) / UNIT_SIZE : Nat) }

/-- Model of `PodArrayDdSpec::datasize()`: throws while `dataWords < 0`
(array size never set), otherwise returns `dataWords * sizeof(Word)`. -/
def PodArrayDdSpec.datasize (c : PodArraySpecState) : Except String Nat :=
  if c.dataWords < 0 then
    .error "Array size is unknown; please set it by setArraySize in the constructor of DD spec."
  else
    .ok (c.dataWords.toNat * UNIT_SIZE)

/-- Configuration fields of `HybridDdSpec`, also both initialised to `-1`. -/
structure HybridSpecState where
  arraySize : Int
  dataWords : Int
deriving DecidableEq

/-- State set up by the `HybridDdSpec` constructor. -/
def HybridDdSpec.init : HybridSpecState := ⟨-1, -1⟩

/-- Model of `HybridDdSpec::setArraySize(int n)`: unconditionally overwrites
`arraySize` and `dataWords` — unlike the POD-array variant there is no check
against setting the size twice, so the call never fails.  `sWords` is
`S_WORDS`, `sizeofA` is `sizeof(A_State)`. -/
def HybridDdSpec.setArraySize (c : HybridSpecState) (sWords sizeofA n : Nat) :
    Except String HybridSpecState :=
  .ok { c with
        arraySize := (n : Int),
        dataWords :=
          (sWords : Int) + ((n * sizeofA + (UNIT_SIZE - 1)) / UNIT_SIZE : Nat) }

/-- Model of `HybridDdSpec::datasize()`: returns `dataWords * sizeof(Word)`
with no check; `dataWords` (an `int`, `-1` before configuration) is converted
to `size_t`, i.e. taken modulo `2 ^ 64`. -/
def HybridDdSpec.datasize (c : HybridSpecState) : Nat :=
  ((c.dataWords * (UNIT_SIZE : Int)) % ((2 : Int) ^ 64)).toNat

/-- Source constant `HASH_CONST_BASE` of `DdSpecBase`. -/
def HASH_CONST_BASE : Nat := 314159257

/-- Modulus of `size_t` arithmetic on the modelled LP64 platform. -/
def SIZE_T_MOD : Nat := 2 ^ 64

/-- Value of the machine word formed by a little-endian byte list. -/
def wordOfBytes (bs : List Nat) : Nat := bs.foldr (fun b acc => b + 256 * acc) 0

/-- The word view a `std::span` of `sizeof(T) / w` words gives of the byte
representation `bs`: consecutive groups of `w` bytes, each read as one word;
a remainder shorter than `w` is not part of the span. -/
def bytesToWords (w : Nat) (bs : List Nat) : List Nat :=
  if h : w = 0 ∨ bs.length < w then []
  else wordOfBytes (bs.take w) :: bytesToWords w (bs.drop w)
termination_by bs.length
decreasing_by
  push_neg at h
  simp only [List.length_drop]
  omega

/-- Model of `DdSpecBase::rawHashCode_<T, I>` with `sizeof(I) = w`, on the
byte representation `bs` of the value: starting from `h = 0`, for every word
`h += it; h *= HASH_CONST_BASE`, in `size_t` arithmetic. -/
def rawHashCodeW (w : Nat) (bs : List Nat) : Nat :=
  (bytesToWords w bs).foldl
    (fun h x => (h + x) % SIZE_T_MOD * HASH_CONST_BASE % SIZE_T_MOD) 0

/-- Model of `DdSpecBase::rawHashCode<T>`: the cascade of divisibility tests
choosing the word type — `size_t` (8 bytes), then `unsigned int` (4), then
`uint16_t` (2), then `unsigned char` (1). -/
def DdSpecBase.rawHashCode (bs : List Nat) : Nat :=
  if bs.length % 8 = 0 then rawHashCodeW 8 bs
  else if bs.length % 4 = 0 then rawHashCodeW 4 bs
  else if bs.length % 2 = 0 then rawHashCodeW 2 bs
  else rawHashCodeW 1 bs

/-- Formalisation of the words of the spec: the widest word size among
pointer-word, 32-bit, 16-bit and byte that evenly divides the value size. -/
def specWidestWord (n : Nat) : Nat :=
  ([8, 4, 2, 1].filter (fun w => n % w == 0)).headD 1

/-- Formalisation of the words of the spec: the left-to-right fold
`h = (h + word) * 314159257` from `h = 0` over the widest-word view. -/
def specRawHashCode (bs : List Nat) : Nat :=
  (bytesToWords (specWidestWord bs.length) bs).foldl
    (fun h x => (h + x) * HASH_CONST_BASE % SIZE_T_MOD) 0

/-! Helper lemmas. -/

lemma totalUnits_nil : totalUnits [] = 0 := rfl

lemma totalUnits_cons (n : Nat) (ns : List Nat) :
    totalUnits (n :: ns) = elementUnits n + totalUnits ns := by
  simp [totalUnits]

lemma le_elementUnits_mul (n : Nat) : n ≤ elementUnits n * UNIT_SIZE := by
  unfold elementUnits UNIT_SIZE
  have h := Nat.div_add_mod (n + 7) 8
  have h2 : (n + 7) % 8 < 8 := Nat.mod_lt _ (by norm_num)
  omega

lemma elementUnits_eq_zero (n : Nat) (h : elementUnits n = 0) : n = 0 := by
  unfold elementUnits UNIT_SIZE at h
  omega

lemma layoutFrom_start_le (b : Option Nat) (ns : List Nat) :
    ∀ (c : Nat), ∀ r ∈ layoutFrom b c ns, c ≤ r.startUnit := by
  induction ns with
  | nil => intro c r hr; simp [layoutFrom] at hr
  | cons n ns ih =>
    intro c r hr
    simp only [layoutFrom, List.mem_cons] at hr
    rcases hr with rfl | hr
    · exact Nat.le_refl c
    · exact Nat.le_trans (Nat.le_add_right c _) (ih (c + elementUnits n) r hr)

lemma layoutFrom_pairwise (b : Option Nat) (ns : List Nat) :
    ∀ (c : Nat), (layoutFrom b c ns).Pairwise Region.disjoint := by
  induction ns with
  | nil => intro c; simp [layoutFrom]
  | cons n ns ih =>
    intro c
    simp only [layoutFrom]
    refine List.Pairwise.cons ?_ (ih _)
    intro r hr
    have hst := layoutFrom_start_le b ns (c + elementUnits n) r hr
    unfold Region.disjoint
    exact Or.inr (Or.inr (Or.inr (Or.inl hst)))

lemma layoutFrom_units (b : Option Nat) (ns : List Nat) :
    ∀ (c : Nat),
      List.Forall₂ (fun n r => r.units = elementUnits n) ns (layoutFrom b c ns) := by
  induction ns with
  | nil => intro c; simp [layoutFrom]
  | cons n ns ih => intro c; exact List.Forall₂.cons rfl (ih _)

lemma allocRun_nonempty_closed (ns : List Nat) :
    ∀ (p : MemoryPool), p.blockList ≠ [] →
      (∀ n ∈ ns, elementUnits n ≤ MAX_ELEMENT_UNIS) →
      p.nextUnit + totalUnits ns ≤ BLOCK_UNITS →
      p.allocRun ns =
        (⟨p.blockList, p.nextUnit + totalUnits ns, p.fresh⟩,
         layoutFrom (p.blockList.head?.map Block.id) p.nextUnit ns) := by
  induction ns with
  | nil =>
    intro p _ _ _
    simp [MemoryPool.allocRun, totalUnits, layoutFrom]
  | cons n ns ih =>
    intro p h0 hmax hfit
    have hn : elementUnits n ≤ MAX_ELEMENT_UNIS := hmax n (by simp)
    rw [totalUnits_cons] at hfit
    have hfit1 : p.nextUnit + elementUnits n ≤ BLOCK_UNITS := by omega
    have halloc : p.alloc n =
        (⟨p.blockList, p.nextUnit + elementUnits n, p.fresh⟩,
         ⟨p.blockList.head?.map Block.id, p.nextUnit, elementUnits n⟩) := by
      simp [MemoryPool.alloc, Nat.not_lt.mpr hn, Nat.not_lt.mpr hfit1]
    have hrec := ih ⟨p.blockList, p.nextUnit + elementUnits n, p.fresh⟩
      h0 (fun m hm => hmax m (by simp [hm])) (by simpa using by omega)
    simp only [MemoryPool.allocRun, halloc, hrec, totalUnits_cons, layoutFrom,
      Nat.add_assoc]

lemma allocRun_empty_props (ns : List Nat) :
    ∀ (f : Nat),
      (∀ n ∈ ns, elementUnits n ≤ MAX_ELEMENT_UNIS) →
      totalUnits ns ≤ BLOCK_UNITS - 1 →
      ((MemoryPool.allocRun ⟨[], BLOCK_UNITS, f⟩ ns).2.Pairwise Region.disjoint ∧
       List.Forall₂ (fun n r => n ≤ r.units * UNIT_SIZE) ns
         (MemoryPool.allocRun ⟨[], BLOCK_UNITS, f⟩ ns).2) := by
  induction ns with
  | nil => intro f _ _; simp [MemoryPool.allocRun]
  | cons n ns ih =>
    intro f hmax hfit
    by_cases h0 : elementUnits n = 0
    · have halloc : MemoryPool.alloc ⟨[], BLOCK_UNITS, f⟩ n =
          (⟨[], BLOCK_UNITS, f⟩, ⟨none, BLOCK_UNITS, 0⟩) := by
        simp [MemoryPool.alloc, h0]
      have hfit' : totalUnits ns ≤ BLOCK_UNITS - 1 := by
        rw [totalUnits_cons] at hfit; omega
      obtain ⟨hpw, hsz⟩ := ih f (fun m hm => hmax m (by simp [hm])) hfit'
      refine ⟨?_, ?_⟩
      · simp only [MemoryPool.allocRun, halloc]
        exact List.Pairwise.cons (fun r _ => Or.inl rfl) hpw
      · simp only [MemoryPool.allocRun, halloc]
        refine List.Forall₂.cons ?_ hsz
        have hzn := elementUnits_eq_zero n h0
        simp [hzn]
    · have h1 : 1 ≤ elementUnits n := Nat.one_le_iff_ne_zero.mpr h0
      have hn : elementUnits n ≤ MAX_ELEMENT_UNIS := hmax n (by simp)
      have hlt : BLOCK_UNITS < BLOCK_UNITS + elementUnits n := by omega
      have halloc : MemoryPool.alloc ⟨[], BLOCK_UNITS, f⟩ n =
          (⟨[⟨f, BLOCK_UNITS, []⟩], 1 + elementUnits n, f + 1⟩,
           ⟨some f, 1, elementUnits n⟩) := by
        simp [MemoryPool.alloc, Nat.not_lt.mpr hn, hlt]
      rw [totalUnits_cons] at hfit
      have hBpos : 1 ≤ BLOCK_UNITS := by decide
      have hfit2 : (1 + elementUnits n) + totalUnits ns ≤ BLOCK_UNITS := by
        omega
      have hclosed := allocRun_nonempty_closed ns
        ⟨[⟨f, BLOCK_UNITS, []⟩], 1 + elementUnits n, f + 1⟩
        (by simp) (fun m hm => hmax m (by simp [hm])) hfit2
      refine ⟨?_, ?_⟩
      · simp only [MemoryPool.allocRun, halloc, hclosed, List.head?_cons,
          Option.map_some']
        refine List.Pairwise.cons ?_ (layoutFrom_pairwise _ _ _)
        intro r hr
        have hst := layoutFrom_start_le (some f) ns (1 + elementUnits n) r hr
        exact Or.inr (Or.inr (Or.inr (Or.inl (by simpa using hst))))
      · simp only [MemoryPool.allocRun, halloc, hclosed, List.head?_cons,
          Option.map_some']
        refine List.Forall₂.cons (le_elementUnits_mul n) ?_
        exact (layoutFrom_units (some f) ns _).imp
          (fun a b hab => hab ▸ le_elementUnits_mul a)

/-- C2: for a sequence of `alloc(n)` requests on a fresh pool, each at most
the large-object threshold in rounded units and with total rounded size at
most one block capacity (`BLOCK_UNITS` minus the link unit), the returned
regions are pairwise disjoint, each holds at least `n` bytes, and each
returned pointer sits at a byte offset divisible by the unit size. -/
theorem alloc_sequence_disjoint_sized_aligned (ns : List Nat)
    (hmax : ∀ n ∈ ns, elementUnits n ≤ MAX_ELEMENT_UNIS)
    (hfit : totalUnits ns ≤ BLOCK_UNITS - 1) :
    ((initialPool.allocRun ns).2.Pairwise Region.disjoint) ∧
    List.Forall₂ (fun n r => n ≤ r.units * UNIT_SIZE) ns
      (initialPool.allocRun ns).2 ∧
    ∀ r ∈ (initialPool.allocRun ns).2, UNIT_SIZE ∣ r.startUnit * UNIT_SIZE := by
  obtain ⟨h1, h2⟩ := allocRun_empty_props ns 0 hmax hfit
  exact ⟨h1, h2, fun r _ => dvd_mul_left UNIT_SIZE r.startUnit⟩

/-- Witness for C2 at the request sequence `[4, 16, 9]`. -/
theorem alloc_sequence_disjoint_sized_aligned_witness :
    (∀ n ∈ [4, 16, 9], elementUnits n ≤ MAX_ELEMENT_UNIS) ∧
    totalUnits [4, 16, 9] ≤ BLOCK_UNITS - 1 ∧
    ((initialPool.allocRun [4, 16, 9]).2.Pairwise Region.disjoint) :=
  ⟨by decide, by decide,
   (alloc_sequence_disjoint_sized_aligned [4, 16, 9] (by decide) (by decide)).1⟩

/-- C3: a request over the max-element threshold gets a dedicated block of
exactly the requested units plus one link unit, linked right after the
current head (or as sole block of an empty pool); the bump cursor is left
unchanged, and a subsequent fitting small allocation is served from the
cursor position current before the large request, out of the original head
block. -/
theorem alloc_large_dedicated_block (p : MemoryPool) (n : Nat)
    (hl : MAX_ELEMENT_UNIS < elementUnits n) :
    (p.alloc n).1.nextUnit = p.nextUnit ∧
    (p.alloc n).1.blockList =
      (match p.blockList with
       | [] => [⟨p.fresh, elementUnits n + 1, []⟩]
       | h :: t => h :: ⟨p.fresh, elementUnits n + 1, []⟩ :: t) ∧
    (p.alloc n).2 = ⟨some p.fresh, 1, elementUnits n⟩ ∧
    (p.blockList ≠ [] → (p.alloc n).1.blockList.head? = p.blockList.head?) ∧
    ∀ m, elementUnits m ≤ MAX_ELEMENT_UNIS →
      p.nextUnit + elementUnits m ≤ BLOCK_UNITS →
      ((p.alloc n).1.alloc m).2 =
        ⟨((p.alloc n).1.blockList.head?).map Block.id, p.nextUnit,
         elementUnits m⟩ ∧
      ((p.alloc n).1.alloc m).1.nextUnit = p.nextUnit + elementUnits m := by
  cases hbl : p.blockList with
  | nil =>
    have halloc : p.alloc n =
        (⟨[⟨p.fresh, elementUnits n + 1, []⟩], p.nextUnit, p.fresh + 1⟩,
         ⟨some p.fresh, 1, elementUnits n⟩) := by
      simp [MemoryPool.alloc, hl, hbl]
    refine ⟨by simp [halloc], by simp [halloc], by simp [halloc],
      fun h => absurd rfl h, ?_⟩
    intro m hm hfits
    rw [halloc]
    refine ⟨?_, ?_⟩ <;>
      simp [MemoryPool.alloc, Nat.not_lt.mpr hm, Nat.not_lt.mpr hfits]
  | cons hd t =>
    have halloc : p.alloc n =
        (⟨hd :: ⟨p.fresh, elementUnits n + 1, []⟩ :: t, p.nextUnit,
          p.fresh + 1⟩,
         ⟨some p.fresh, 1, elementUnits n⟩) := by
      simp [MemoryPool.alloc, hl, hbl]
    refine ⟨by simp [halloc], by simp [halloc, hbl], by simp [halloc],
      by simp [halloc, hbl], ?_⟩
    intro m hm hfits
    rw [halloc]
    refine ⟨?_, ?_⟩ <;>
      simp [MemoryPool.alloc, Nat.not_lt.mpr hm, Nat.not_lt.mpr hfits]

/-- Witness for C3: a 40008-byte request (5001 units) on a one-block pool
with cursor 5, followed by a 16-byte request served at cursor 5 of block 7. -/
theorem alloc_large_dedicated_block_witness :
    MAX_ELEMENT_UNIS < elementUnits 40008 ∧
    ((⟨[⟨7, BLOCK_UNITS, []⟩], 5, 8⟩ : MemoryPool).alloc 40008).1.nextUnit = 5 ∧
    (((⟨[⟨7, BLOCK_UNITS, []⟩], 5, 8⟩ : MemoryPool).alloc 40008).1.alloc 16).2 =
      ⟨(((⟨[⟨7, BLOCK_UNITS, []⟩], 5, 8⟩ : MemoryPool).alloc
          40008).1.blockList.head?).map Block.id, 5, elementUnits 16⟩ :=
  ⟨by decide,
   (alloc_large_dedicated_block ⟨[⟨7, BLOCK_UNITS, []⟩], 5, 8⟩ 40008
      (by decide)).1,
   ((alloc_large_dedicated_block ⟨[⟨7, BLOCK_UNITS, []⟩], 5, 8⟩ 40008
      (by decide)).2.2.2.2 16 (by decide) (by decide)).1⟩

/-- C4: after `a.splice(b)` the source pool is empty with its cursor reset
to the initial full-block value, the combined pool holds exactly the blocks
previously held by `a` and by `b` (with their contents untouched, every
block of `b` still reachable), and adopts the cursor `b` had before. -/
theorem splice_transfers_ownership (a b : MemoryPool) :
    (a.splice b).2.empty = true ∧
    (a.splice b).2.nextUnit = BLOCK_UNITS ∧
    (a.splice b).1.nextUnit = b.nextUnit ∧
    (a.splice b).1.blockList = b.blockList ++ a.blockList ∧
    (a.splice b).1.blockList.Perm (a.blockList ++ b.blockList) ∧
    ∀ blk ∈ b.blockList, blk ∈ (a.splice b).1.blockList := by
  cases hbl : a.blockList with
  | nil =>
    refine ⟨rfl, rfl, rfl, ?_, ?_, ?_⟩ <;>
      simp [MemoryPool.splice, MemoryPool.empty, hbl]
  | cons hd t =>
    refine ⟨rfl, rfl, rfl, ?_, ?_, ?_⟩
    · simp [MemoryPool.splice, hbl]
    · simp only [MemoryPool.splice, hbl]
      simpa using List.perm_append_comm
    · intro blk hblk
      simp [MemoryPool.splice, hbl, hblk]

/-- Counterexample to C5: with `a` holding blocks 1, 2 and `b` holding
block 3, the chain after `a.splice(b)` is neither headed by the previous
head of `a` nor equal to the chain the claim predicts (the chain of `b`
inserted right after the head of `a`). -/
theorem splice_keeps_this_head_cex :
    ((MemoryPool.splice ⟨[⟨1, 50000, []⟩, ⟨2, 50000, []⟩], 5, 3⟩
        ⟨[⟨3, 50000, []⟩], 7, 4⟩).1.blockList.head? ≠
      some ⟨1, 50000, []⟩) ∧
    ((MemoryPool.splice ⟨[⟨1, 50000, []⟩, ⟨2, 50000, []⟩], 5, 3⟩
        ⟨[⟨3, 50000, []⟩], 7, 4⟩).1.blockList ≠
      [⟨1, 50000, []⟩, ⟨3, 50000, []⟩, ⟨2, 50000, []⟩]) := by
  constructor <;> decide

/-- C5 as amended: `this.splice(other)` appends the chain of `this` after
the entire chain of `other`, found by traversing the chain of `other` to
its tail; the previous head of `other` heads the resulting chain and the
cursor of `other` is adopted. -/
theorem splice_appends_this_chain_after_other (a b : MemoryPool)
    (hb : b.blockList ≠ []) :
    (a.splice b).1.blockList = b.blockList ++ a.blockList ∧
    (a.splice b).1.blockList.head? = b.blockList.head? ∧
    (a.splice b).1.nextUnit = b.nextUnit := by
  obtain ⟨x, xs, hxs⟩ := List.exists_cons_of_ne_nil hb
  cases hbl : a.blockList with
  | nil => refine ⟨?_, ?_, rfl⟩ <;> simp [MemoryPool.splice, hbl, hxs]
  | cons hd t => refine ⟨?_, ?_, rfl⟩ <;> simp [MemoryPool.splice, hbl, hxs]

/-- Witness for C5 as amended, on concrete one-block pools. -/
theorem splice_appends_this_chain_after_other_witness :
    ((⟨[⟨3, 50000, []⟩], 7, 4⟩ : MemoryPool).blockList ≠ []) ∧
    ((⟨[⟨1, 50000, []⟩], 5, 3⟩ : MemoryPool).splice
        ⟨[⟨3, 50000, []⟩], 7, 4⟩).1.blockList =
      [⟨3, 50000, []⟩] ++ [⟨1, 50000, []⟩] :=
  ⟨by decide,
   (splice_appends_this_chain_after_other ⟨[⟨1, 50000, []⟩], 5, 3⟩
      ⟨[⟨3, 50000, []⟩], 7, 4⟩ (by decide)).1⟩

/-- C10: `this.moveFrom(o)` hands the chain and cursor of `o` to `this` and
nulls the chain of `o`, which is empty afterwards; unlike `splice`, the
cursor of `o` keeps its previous value rather than being reset to the
initial full-block value. -/
theorem moveFrom_transfers_without_cursor_reset (a o : MemoryPool) :
    (a.moveFrom o).1.blockList = o.blockList ∧
    (a.moveFrom o).1.nextUnit = o.nextUnit ∧
    (a.moveFrom o).2.empty = true ∧
    (a.moveFrom o).2.nextUnit = o.nextUnit ∧
    (a.splice o).2.nextUnit = BLOCK_UNITS := by
  exact ⟨rfl, rfl, rfl, rfl, rfl⟩

/-- Counterexample to C6: on a constructed hybrid-variant buffer the
`destruct` call runs no destructor at all, not exactly one. -/
theorem hybrid_destruct_runs_none_cex :
    ¬ ((HybridDdSpec.destruct ⟨0⟩).destructorRuns = 1) := by decide

/-- C6 as amended: the scalar variant `destruct` runs the state destructor
exactly once per call; the POD-array and hybrid variants never run any
destructor. -/
theorem destruct_scalar_once_pod_hybrid_never (b : StateBuffer) :
    (DdSpec.destruct b).destructorRuns = b.destructorRuns + 1 ∧
    PodArrayDdSpec.destruct b = b ∧
    HybridDdSpec.destruct b = b :=
  ⟨rfl, rfl, rfl⟩

/-- Boolean success test for a modelled call that may throw. -/
def exceptIsOk {α : Type} (e : Except String α) : Bool :=
  match e with
  | .ok _ => true
  | .error _ => false

/-- C7: the POD-array variant rejects a second `setArraySize` call and a
`datasize` query before configuration with a non-recoverable error; the
hybrid variant, contrary to the claim, accepts a second `setArraySize` call
and returns the wrapped `size_t` value `2 ^ 64 - 8` from an unconfigured
`datasize()` instead of failing. -/
theorem setArraySize_once_datasize_guard :
    (∀ (s n s2 m : Nat) (c : PodArraySpecState),
        PodArrayDdSpec.setArraySize PodArrayDdSpec.init s n = .ok c →
        exceptIsOk (PodArrayDdSpec.setArraySize c s2 m) = false) ∧
    exceptIsOk (PodArrayDdSpec.datasize PodArrayDdSpec.init) = false ∧
    exceptIsOk ((HybridDdSpec.setArraySize HybridDdSpec.init 1 8 3).bind
        (fun c => HybridDdSpec.setArraySize c 1 8 4)) = true ∧
    HybridDdSpec.datasize HybridDdSpec.init = 2 ^ 64 - 8 := by
  refine ⟨?_, by decide, by decide, by decide⟩
  intro s n s2 m c h
  have hc : c.arraySize = (n : Int) := by
    simp only [PodArrayDdSpec.init, PodArrayDdSpec.setArraySize] at h
    rw [if_neg (by decide)] at h
    cases h
    rfl
  simp only [PodArrayDdSpec.setArraySize, hc]
  rw [if_pos (Int.natCast_nonneg n)]
  rfl

/-- Witness for C7: configuring a POD-array spec with three 8-byte elements
succeeds once and the second configuration call fails. -/
theorem setArraySize_once_datasize_guard_witness :
    PodArrayDdSpec.setArraySize PodArrayDdSpec.init 8 3 = .ok ⟨3, 3⟩ ∧
    exceptIsOk (PodArrayDdSpec.setArraySize ⟨3, 3⟩ 8 4) = false :=
  ⟨rfl, setArraySize_once_datasize_guard.1 8 3 8 4 ⟨3, 3⟩ rfl⟩

/-- C1: `get_copy` followed by `equal_to` holds for the scalar and POD-array
variants; for the hybrid variant the call at a concrete source and
destination writes the source array word past the end of the destination
buffer (second component), leaves the destination array region at its old
value 3, and the subsequent `equal_to` with the source is `false`. -/
theorem get_copy_roundtrip_and_hybrid_copy_bug :
    (∀ dst src : List Nat,
        DdSpec.equal_to (DdSpec.get_copy dst src) src = true) ∧
    (∀ (dW : Nat) (dst src : List Nat), dst.length = dW → src.length = dW →
        PodArrayDdSpec.equal_to dW (PodArrayDdSpec.get_copy dW dst src) src
          = true) ∧
    HybridDdSpec.get_copy 1 2 [0, 3] [5, 7] = ([5, 3], [7]) ∧
    HybridDdSpec.equal_to 1 2 (HybridDdSpec.get_copy 1 2 [0, 3] [5, 7]).1
      [5, 7] = false := by
  refine ⟨?_, ?_, by decide, by decide⟩
  · intro dst src
    simp [DdSpec.get_copy, DdSpec.equal_to]
  · intro dW dst src _ hsrc
    have h1 : (src.take dW).length = dW := by
      rw [List.length_take, hsrc, Nat.min_self]
    simp only [PodArrayDdSpec.get_copy, PodArrayDdSpec.equal_to]
    rw [List.take_left' h1]
    simp

/-- Witness for C1 at a concrete POD-array copy of two words. -/
theorem get_copy_roundtrip_and_hybrid_copy_bug_witness :
    (([1, 2] : List Nat).length = 2) ∧ (([5, 7] : List Nat).length = 2) ∧
    PodArrayDdSpec.equal_to 2 (PodArrayDdSpec.get_copy 2 [1, 2] [5, 7]) [5, 7]
      = true :=
  ⟨rfl, rfl,
   get_copy_roundtrip_and_hybrid_copy_bug.2.1 2 [1, 2] [5, 7] rfl rfl⟩

lemma rawHashCodeW_mod_eq (w : Nat) (bs : List Nat) :
    rawHashCodeW w bs =
      (bytesToWords w bs).foldl
        (fun h x => (h + x) * HASH_CONST_BASE % SIZE_T_MOD) 0 := by
  unfold rawHashCodeW
  have hstep : (fun (h x : Nat) =>
      (h + x) % SIZE_T_MOD * HASH_CONST_BASE % SIZE_T_MOD) =
      (fun (h x : Nat) => (h + x) * HASH_CONST_BASE % SIZE_T_MOD) := by
    funext h x
    exact Nat.mod_mul_mod
  rw [hstep]

lemma specWidestWord_eq (n : Nat) :
    specWidestWord n =
      if n % 8 = 0 then 8 else if n % 4 = 0 then 4
      else if n % 2 = 0 then 2 else 1 := by
  unfold specWidestWord
  by_cases h8 : n % 8 = 0 <;> by_cases h4 : n % 4 = 0 <;>
    by_cases h2 : n % 2 = 0 <;>
      simp [List.filter_cons, h8, h4, h2, Nat.mod_one]

/-- C9: the raw hash of a value is the left-to-right fold
`h = (h + word) * 314159257` from `h = 0`, in `size_t` arithmetic, over the
view of the value as words of the widest size among pointer-word, 32-bit,
16-bit and byte that evenly divides the value size. -/
theorem rawHashCode_matches_spec (bs : List Nat) :
    DdSpecBase.rawHashCode bs = specRawHashCode bs := by
  unfold DdSpecBase.rawHashCode specRawHashCode
  rw [specWidestWord_eq]
  split_ifs <;> exact rawHashCodeW_mod_eq _ _

/-- Pool states reachable from a freshly constructed pool by `alloc`,
`clear`, `reuse` and `splice` (either side of the transfer). -/
inductive ReachablePool : MemoryPool → Prop where
  | init : ReachablePool initialPool
  | step_alloc (p : MemoryPool) (n : Nat) :
      ReachablePool p → ReachablePool (p.alloc n).1
  | step_clear (p : MemoryPool) : ReachablePool p → ReachablePool p.clear
  | step_reuse (p : MemoryPool) : ReachablePool p → ReachablePool p.reuse
  | step_splice_fst (p q : MemoryPool) :
      ReachablePool p → ReachablePool q → ReachablePool (p.splice q).1
  | step_splice_snd (p q : MemoryPool) :
      ReachablePool p → ReachablePool q → ReachablePool (p.splice q).2

/-- C8: on every reachable pool state the cursor satisfies
`nextUnit <= BLOCK_UNITS`, and a small request that would push the cursor
past `BLOCK_UNITS` allocates a fresh full head block and restarts the cursor
at unit 1 before bump-allocating. -/
theorem cursor_invariant_and_overflow_path :
    (∀ p : MemoryPool, ReachablePool p → p.nextUnit ≤ BLOCK_UNITS) ∧
    (∀ (p : MemoryPool) (n : Nat), elementUnits n ≤ MAX_ELEMENT_UNIS →
        BLOCK_UNITS < p.nextUnit + elementUnits n →
        (p.alloc n).1.blockList = ⟨p.fresh, BLOCK_UNITS, []⟩ :: p.blockList ∧
        (p.alloc n).1.nextUnit = 1 + elementUnits n ∧
        (p.alloc n).2 = ⟨some p.fresh, 1, elementUnits n⟩) := by
  constructor
  · intro p h
    induction h with
    | init => exact Nat.le_refl _
    | step_alloc p n hp ih =>
      by_cases hL : MAX_ELEMENT_UNIS < elementUnits n
      · cases hbl : p.blockList with
        | nil => simpa [MemoryPool.alloc, hL, hbl] using ih
        | cons hd t => simpa [MemoryPool.alloc, hL, hbl] using ih
      · by_cases hB : BLOCK_UNITS < p.nextUnit + elementUnits n
        · have hmb : MAX_ELEMENT_UNIS + 1 ≤ BLOCK_UNITS := by decide
          have heu : elementUnits n ≤ MAX_ELEMENT_UNIS := Nat.not_lt.mp hL
          simp only [MemoryPool.alloc, if_neg hL, if_pos hB]
          show 1 + elementUnits n ≤ BLOCK_UNITS
          omega
        · simp only [MemoryPool.alloc, if_neg hL, if_neg hB]
          exact Nat.not_lt.mp hB
    | step_clear p hp ih => exact Nat.le_refl _
    | step_reuse p hp ih =>
      cases hbl : p.blockList with
      | nil => simpa [MemoryPool.reuse, hbl] using ih
      | cons b bs =>
        simp only [MemoryPool.reuse, hbl]
        show 1 ≤ BLOCK_UNITS
        decide
    | step_splice_fst p q hp hq ihp ihq => exact ihq
    | step_splice_snd p q hp hq ihp ihq => exact Nat.le_refl _
  · intro p n hm hB
    refine ⟨?_, ?_, ?_⟩ <;>
      simp [MemoryPool.alloc, Nat.not_lt.mpr hm, hB]

/-- Witness for C8: the fresh pool satisfies the invariant, and a 16-byte
request on it (cursor at `BLOCK_UNITS`) restarts the cursor at unit 1. -/
theorem cursor_invariant_and_overflow_path_witness :
    initialPool.nextUnit ≤ BLOCK_UNITS ∧
    elementUnits 16 ≤ MAX_ELEMENT_UNIS ∧
    BLOCK_UNITS < initialPool.nextUnit + elementUnits 16 ∧
    (initialPool.alloc 16).1.nextUnit = 1 + elementUnits 16 :=
  ⟨cursor_invariant_and_overflow_path.1 initialPool ReachablePool.init,
   by decide, by decide,
   (cursor_invariant_and_overflow_path.2 initialPool 16 (by decide)
      (by decide)).2.1⟩
